import Mathlib

/-!
Verification of the ABCU Advising Assistant repository (three C++ program
variants: enhancement1 uses `std::unordered_map`, enhancement2 and
enhancement3 use a hand-written 17-bucket hash table with linked-list
chaining; the two chained `HashTable` classes are member-for-member
identical, enhancement3 additionally has `clearTable`).

Strings are modelled as lists of character codes (`Str`), C++ exceptions as
an explicit error type `Err`, and mutation as explicit state passing: an
operation that can throw while mutating returns the mutated state together
with an optional error, exactly as the object survives a thrown exception.
-/

/-- A C++ `std::string`, as its list of character codes. -/
abbrev Str := List Nat

/-- Function `::toupper` on one character (C locale, ASCII). -/
def toUpperChar (c : Nat) : Nat := if 97 ≤ c ∧ c ≤ 122 then c - 32 else c

/-- Source `HashTable::toUpper`: uppercase every character of the string. -/
def toUpper (s : Str) : Str := s.map toUpperChar

/-- Constant `const int HASH_TABLE_SIZE = 17;` (enhancement2/enhancement3). -/
def HASH_TABLE_SIZE : Nat := 17

/-- The three discriminable error kinds of the design, plus the loader's
wrapper that adds a 1-based line number, matching the distinct
`runtime_error` messages thrown by the source. -/
inductive Err where
  | validationError            -- "Invalid Course Data: Code or Title is missing."
  | stateError                 -- "No data loaded."
  | notFoundError              -- "Course not found."
  | openError                  -- "Could not open file: ..."
  | malformedLine              -- "Malformed line in file."
  | lineError (lineNum : Nat) (inner : Err)  -- "Error on line N: ..."
deriving DecidableEq

/-- The class `Course`: code, title, prerequisites (all three variants share
this class verbatim). -/
structure Course where
  code : Str
  title : Str
  prerequisites : List Str
deriving DecidableEq

/-- The validating constructor `Course(string c, string t, vector<string> p)`:
it calls `validate()`, which throws when code or title is empty. -/
def Course.construct (c t : Str) (p : List Str) : Except Err Course :=
  if c = [] ∨ t = [] then .error .validationError else .ok ⟨c, t, p⟩

/-- The public default constructor `Course() {}`: all members are empty. -/
def Course.defaultCtor : Course := ⟨[], [], []⟩

instance {ε α : Type} [DecidableEq ε] [DecidableEq α] : DecidableEq (Except ε α) := fun
  | .ok a, .ok b =>
      if h : a = b then isTrue (by rw [h]) else isFalse (by simpa using h)
  | .ok _, .error _ => isFalse (by simp)
  | .error _, .ok _ => isFalse (by simp)
  | .error a, .error b =>
      if h : a = b then isTrue (by rw [h]) else isFalse (by simpa using h)

/-- Split a string at every comma (code 44), keeping empty pieces. -/
def splitComma : Str → List Str
  | [] => [[]]
  | c :: rest =>
    let fs := splitComma rest
    if c = 44 then [] :: fs
    else
      match fs with
      | f :: fs' => (c :: f) :: fs'
      | [] => [[c]]

/-- The fields produced by a `while (getline(ss, x, ','))` loop over a line:
a standard comma split, except that a lone trailing empty field (caused by a
trailing comma or an empty line) is never produced because the final
`getline` fails at end of stream. -/
def getlineFields (s : Str) : List Str :=
  let fs := splitComma s
  if fs.getLast? = some [] then fs.dropLast else fs

/-- Source `HashTable::parseCourse` (enhancement1/enhancement2): the first two
fields are code and title (fewer than two fields throws "Malformed line"),
the remaining non-empty fields are prerequisites, and constructing the
`Course` runs its validation. -/
def parseCourse (line : Str) : Except Err Course :=
  match getlineFields line with
  | code :: title :: rest => Course.construct code title (rest.filter (fun p => !p.isEmpty))
  | _ => .error .malformedLine

/-- Lexicographic comparison of strings by character code: the Boolean form
of `std::string::operator<=`, the order in which `std::sort` arranges
`vector<string>`. -/
def strLe : Str → Str → Bool
  | [], _ => true
  | _ :: _, [] => false
  | a :: as, b :: bs => if a < b then true else if b < a then false else strLe as bs

/-- Relation form of `strLe`. -/
def strLeR (a b : Str) : Prop := strLe a b = true

instance : DecidableRel strLeR := fun a b => inferInstanceAs (Decidable (strLe a b = true))

theorem strLe_total : ∀ a b : Str, strLe a b = true ∨ strLe b a = true
  | [], _ => Or.inl rfl
  | _ :: _, [] => Or.inr rfl
  | a :: as, b :: bs => by
    simp only [strLe]
    rcases Nat.lt_trichotomy a b with h | h | h
    · left; simp [h]
    · subst h
      simp only [Nat.lt_irrefl, if_false]
      exact strLe_total as bs
    · right; simp [h]

theorem strLe_trans : ∀ a b c : Str, strLe a b = true → strLe b c = true → strLe a c = true
  | [], _, _, _, _ => rfl
  | _ :: _, [], _, h, _ => by simp [strLe] at h
  | _ :: _, _ :: _, [], _, h => by simp [strLe] at h
  | a :: as, b :: bs, c :: cs, h1, h2 => by
    simp only [strLe] at h1 h2 ⊢
    by_cases hab : a < b
    · by_cases hbc : b < c
      · simp [Nat.lt_trans hab hbc]
      · by_cases hcb : c < b
        · simp only [hbc, if_false, hcb, if_true] at h2
          exact (Bool.false_ne_true h2).elim
        · have hbceq : b = c := Nat.le_antisymm (Nat.le_of_not_lt hcb) (Nat.le_of_not_lt hbc)
          subst hbceq
          simp [hab]
    · by_cases hba : b < a
      · simp only [hab, if_false, hba, if_true] at h1
        exact (Bool.false_ne_true h1).elim
      · have habeq : a = b := Nat.le_antisymm (Nat.le_of_not_lt hba) (Nat.le_of_not_lt hab)
        subst habeq
        by_cases hbc : a < c
        · simp [hbc]
        · by_cases hcb : c < a
          · simp only [hbc, if_false, hcb, if_true] at h2
            exact (Bool.false_ne_true h2).elim
          · have : a = c := Nat.le_antisymm (Nat.le_of_not_lt hcb) (Nat.le_of_not_lt hbc)
            subst this
            simp only [Nat.lt_irrefl, if_false] at h1 h2 ⊢
            exact strLe_trans as bs cs h1 h2

instance : IsTotal Str strLeR := ⟨strLe_total⟩

instance : IsTrans Str strLeR := ⟨strLe_trans⟩

/-- The observable result of `std::sort` on a `vector<string>`: the unique
ascending reordering (equal elements are identical strings, so stability is
irrelevant); computed here by insertion sort. -/
def sortStrings (l : List Str) : List Str := List.insertionSort strLeR l

/-- The class `HashTable` of enhancement2 and enhancement3 (the two class bodies
coincide member for member): a fixed array of 17 bucket chains, the
insertion-order key list `courseOrder`, and the `dataLoaded` flag. A chain
is modelled head-first, matching the `Node*` list. -/
structure HashTable where
  table : List (List Course)
  courseOrder : List Str
  dataLoaded : Bool
deriving DecidableEq

namespace HashTable

/-- Source `HashTable::hash`: polynomial accumulation `hashVal = hashVal * 31 + ch`
in `unsigned int` (wrapping modulo 2^32), then `% HASH_TABLE_SIZE`. -/
def hash (key : Str) : Nat :=
  (key.foldl (fun hashVal ch => (hashVal * 31 + ch) % 4294967296) 0) % HASH_TABLE_SIZE

/-- The `HashTable()` constructor: every bucket `nullptr`, no keys, not
loaded. -/
def init : HashTable := ⟨List.replicate HASH_TABLE_SIZE [], [], false⟩

/-- Source `HashTable::insert`: canonicalize the code, compute the bucket index,
append a new node at the tail of that bucket's chain, and record the
canonical key in `courseOrder`. -/
def insert (t : HashTable) (course : Course) : HashTable :=
  let key := toUpper course.code
  let index := hash key
  { t with
      table := t.table.set index (t.table.getD index [] ++ [course])
      courseOrder := t.courseOrder ++ [key] }

/-- The chain scan of `HashTable::getCourse`: walk the list head-first and
return the first course whose canonicalized stored code matches. -/
def findInChain (key : Str) : List Course → Option Course
  | [] => none
  | c :: rest => if toUpper c.code = key then some c else findInChain key rest

/-- Source `HashTable::getCourse`: throw "No data loaded." when the flag is unset,
otherwise scan only the target bucket's chain and throw "Course not found."
when the chain is exhausted. -/
def getCourse (t : HashTable) (code : Str) : Except Err Course :=
  if t.dataLoaded = false then .error .stateError
  else
    let key := toUpper code
    let index := hash key
    match findInChain key (t.table.getD index []) with
    | some c => .ok c
    | none => .error .notFoundError

/-- Source `HashTable::getSortedCourseCodes`: throw "No data loaded." when the flag
is unset, otherwise sort the member `courseOrder` **in place** and return
it; the result carries the updated table state. -/
def getSortedCourseCodes (t : HashTable) : Except Err (List Str × HashTable) :=
  if t.dataLoaded = false then .error .stateError
  else
    let sorted := sortStrings t.courseOrder
    .ok (sorted, { t with courseOrder := sorted })

/-- Source `HashTable::clearTable` (enhancement3): delete every node of every
bucket chain and reset each head to `nullptr` — and nothing else. -/
def clearTable (t : HashTable) : HashTable :=
  { t with table := t.table.map (fun _ => ([] : List Course)) }

/-- The line loop of `HashTable::loadData`: parse each line (wrapping a
parse or validation failure as "Error on line N"), insert the parsed
course, and set `dataLoaded` only after the whole file is consumed. The
mutated table is returned even when an error is raised. -/
def loadLines : HashTable → Nat → List Str → HashTable × Option Err
  | t, _, [] => ({ t with dataLoaded := true }, none)
  | t, lineNum, line :: rest =>
    match parseCourse line with
    | .ok course => loadLines (t.insert course) (lineNum + 1) rest
    | .error e => (t, some (.lineError (lineNum + 1) e))

/-- Source `HashTable::loadData` (enhancement2): a file that cannot be opened
(modelled as `none`) throws before any state is touched; otherwise
`courseOrder` and all buckets are cleared and the lines are processed. -/
def loadData (t : HashTable) (file : Option (List Str)) : HashTable × Option Err :=
  match file with
  | none => (t, some .openError)
  | some lines =>
      loadLines { t with courseOrder := [], table := List.replicate HASH_TABLE_SIZE [] } 0 lines

/-- Insert a list of records in sequence order. -/
def insertAll (t : HashTable) (rs : List Course) : HashTable := rs.foldl insert t

/-- The spec's `load(records)` as the source realizes it on already-parsed
records: clear `courseOrder` and the buckets, insert every record in
order, then set the loaded flag. -/
def loadRecords (t : HashTable) (rs : List Course) : HashTable :=
  { insertAll { t with courseOrder := [], table := List.replicate HASH_TABLE_SIZE [] } rs with
      dataLoaded := true }

end HashTable

namespace Enh1

/-- The class `HashTable` of enhancement1: `unordered_map<string, Course>`
keyed by uppercased code (modelled as an association list with unique
keys), the insertion-order key list `courseOrder`, and the `dataLoaded`
flag. -/
structure HashTable where
  courseMap : List (Str × Course)
  courseOrder : List Str
  dataLoaded : Bool
deriving DecidableEq

/-- Assignment `courseMap[upperCode] = course`: insert-or-assign on a unique-key map —
an existing entry for the key has its value replaced. -/
def mapInsert : List (Str × Course) → Str → Course → List (Str × Course)
  | [], k, c => [(k, c)]
  | (k', c') :: rest, k, c =>
      if k' = k then (k', c) :: rest else (k', c') :: mapInsert rest k c

/-- Lookup `courseMap.find(key)` on the unique-key map. -/
def mapFind : List (Str × Course) → Str → Option Course
  | [], _ => none
  | (k', c) :: rest, k => if k' = k then some c else mapFind rest k

/-- The loop body of enhancement1's `loadData`:
`courseMap[upperCode] = course; courseOrder.push_back(upperCode);`. -/
def HashTable.insertCourse (t : HashTable) (course : Course) : HashTable :=
  let upperCode := toUpper course.code
  { t with
      courseMap := mapInsert t.courseMap upperCode course
      courseOrder := t.courseOrder ++ [upperCode] }

/-- The default-constructed enhancement1 table. -/
def init : HashTable := ⟨[], [], false⟩

/-- The line loop of enhancement1's `loadData`. -/
def loadLines : HashTable → Nat → List Str → HashTable × Option Err
  | t, _, [] => ({ t with dataLoaded := true }, none)
  | t, lineNum, line :: rest =>
    match parseCourse line with
    | .ok course => loadLines (t.insertCourse course) (lineNum + 1) rest
    | .error e => (t, some (.lineError (lineNum + 1) e))

/-- Enhancement1's `loadData`: identical to enhancement2's except that the
storage cleared and refilled is the `unordered_map`. -/
def loadData (t : HashTable) (file : Option (List Str)) : HashTable × Option Err :=
  match file with
  | none => (t, some .openError)
  | some lines => loadLines { t with courseMap := [], courseOrder := [] } 0 lines

/-- Enhancement1's `getCourse`: state check, canonicalize, map lookup. -/
def HashTable.getCourse (t : HashTable) (code : Str) : Except Err Course :=
  if t.dataLoaded = false then .error .stateError
  else
    let upperCode := toUpper code
    match mapFind t.courseMap upperCode with
    | some c => .ok c
    | none => .error .notFoundError

/-- Enhancement1's `getSortedCourseCodes`: textually the same in-place sort
of `courseOrder` as the chained variants. -/
def HashTable.getSortedCourseCodes (t : HashTable) : Except Err (List Str × HashTable) :=
  if t.dataLoaded = false then .error .stateError
  else
    let sorted := sortStrings t.courseOrder
    .ok (sorted, { t with courseOrder := sorted })

/-- Insert a list of records in sequence order. -/
def insertAll (t : HashTable) (rs : List Course) : HashTable :=
  rs.foldl HashTable.insertCourse t

/-- The spec's `load(records)` on enhancement1's table. -/
def loadRecords (t : HashTable) (rs : List Course) : HashTable :=
  { insertAll { t with courseMap := [], courseOrder := [] } rs with dataLoaded := true }

end Enh1

section ListHelpers

variable {α : Type}

theorem getD_set_self (l : List α) (i : Nat) (x d : α) (h : i < l.length) :
    (l.set i x).getD i d = x := by
  induction l generalizing i with
  | nil => simp at h
  | cons a as ih =>
    cases i with
    | zero => rfl
    | succ j =>
      simp only [List.set, List.getD, List.getElem?_cons_succ]
      exact ih j (Nat.lt_of_succ_lt_succ h)

theorem getD_set_ne (l : List α) (i j : Nat) (x d : α) (h : i ≠ j) :
    (l.set i x).getD j d = l.getD j d := by
  induction l generalizing i j with
  | nil => rfl
  | cons a as ih =>
    cases i with
    | zero =>
      cases j with
      | zero => exact absurd rfl h
      | succ _ => rfl
    | succ i' =>
      cases j with
      | zero => rfl
      | succ j' =>
        simp only [List.set, List.getD, List.getElem?_cons_succ]
        exact ih i' j' fun hc => h (by rw [hc])

theorem getD_map_const_nil (l : List (List Course)) (i : Nat) :
    (l.map (fun _ => ([] : List Course))).getD i [] = [] := by
  induction l generalizing i with
  | nil => rfl
  | cons a as ih =>
    cases i with
    | zero => rfl
    | succ j =>
      simp only [List.map, List.getD, List.getElem?_cons_succ]
      exact ih j

theorem getD_replicate_nil (n i : Nat) :
    ((List.replicate n ([] : List Course)).getD i []) = [] := by
  induction n generalizing i with
  | zero => rfl
  | succ m ih =>
    cases i with
    | zero => rfl
    | succ j =>
      simp only [List.replicate, List.getD, List.getElem?_cons_succ]
      exact ih j

end ListHelpers

namespace HashTable

theorem hash_lt (key : Str) : hash key < HASH_TABLE_SIZE :=
  Nat.mod_lt _ (by decide)

theorem insert_table_length (t : HashTable) (c : Course) :
    (t.insert c).table.length = t.table.length := by
  simp [insert]

theorem insert_courseOrder (t : HashTable) (c : Course) :
    (t.insert c).courseOrder = t.courseOrder ++ [toUpper c.code] := rfl

theorem insert_dataLoaded (t : HashTable) (c : Course) :
    (t.insert c).dataLoaded = t.dataLoaded := rfl

/-- Inserting appends the record to exactly its bucket's chain and leaves
every other bucket unchanged. -/
theorem insert_table_getD (t : HashTable) (c : Course) (i : Nat)
    (ht : t.table.length = HASH_TABLE_SIZE) :
    (t.insert c).table.getD i [] =
      t.table.getD i [] ++ (if hash (toUpper c.code) = i then [c] else []) := by
  by_cases h : hash (toUpper c.code) = i
  · rw [if_pos h]
    show (t.table.set (hash (toUpper c.code)) _).getD i [] = _
    rw [h, getD_set_self]
    rw [ht]
    rw [← h]
    exact hash_lt _
  · rw [if_neg h, List.append_nil]
    exact getD_set_ne _ _ _ _ _ h

theorem insertAll_table_length (rs : List Course) (t : HashTable) :
    (insertAll t rs).table.length = t.table.length := by
  induction rs generalizing t with
  | nil => rfl
  | cons c rest ih =>
    show (insertAll (t.insert c) rest).table.length = _
    rw [ih, insert_table_length]

theorem insertAll_courseOrder (rs : List Course) (t : HashTable) :
    (insertAll t rs).courseOrder = t.courseOrder ++ rs.map (fun c => toUpper c.code) := by
  induction rs generalizing t with
  | nil => simp [insertAll]
  | cons c rest ih =>
    show (insertAll (t.insert c) rest).courseOrder = _
    rw [ih, insert_courseOrder]
    simp

theorem insertAll_dataLoaded (rs : List Course) (t : HashTable) :
    (insertAll t rs).dataLoaded = t.dataLoaded := by
  induction rs generalizing t with
  | nil => rfl
  | cons c rest ih =>
    show (insertAll (t.insert c) rest).dataLoaded = _
    rw [ih, insert_dataLoaded]

/-- After inserting a sequence, each bucket's chain is the insertion-order
sublist of the records that hash there, appended after the bucket's prior
contents. -/
theorem insertAll_table_getD (rs : List Course) (t : HashTable) (i : Nat)
    (ht : t.table.length = HASH_TABLE_SIZE) :
    (insertAll t rs).table.getD i [] =
      t.table.getD i [] ++ rs.filter (fun c => decide (hash (toUpper c.code) = i)) := by
  induction rs generalizing t with
  | nil => simp [insertAll]
  | cons c rest ih =>
    show (insertAll (t.insert c) rest).table.getD i [] = _
    rw [ih _ (by rw [insert_table_length, ht]), insert_table_getD _ _ _ ht]
    rw [List.filter_cons, List.append_assoc]
    by_cases h : hash (toUpper c.code) = i
    · simp [h]
    · simp [h]

/-- Filtering a chain by a predicate that holds of every matching course
does not change the head-first scan's result. -/
theorem findInChain_filter (key : Str) (p : Course → Bool)
    (hp : ∀ c, toUpper c.code = key → p c = true) :
    ∀ rs : List Course, findInChain key (rs.filter p) = findInChain key rs := by
  intro rs
  induction rs with
  | nil => rfl
  | cons c rest ih =>
    by_cases hc : toUpper c.code = key
    · simp [List.filter_cons, hp c hc, findInChain, hc]
    · cases hpc : p c with
      | true => simp [List.filter_cons, hpc, findInChain, hc, ih]
      | false => simp [List.filter_cons, hpc, findInChain, hc, ih]

/-- The central lookup lemma for the chained variants: looking up any code
in a freshly loaded table returns the **first** record of the load sequence
whose canonical code matches, and fails with `notFoundError` when none
does. -/
theorem getCourse_loadRecords (t : HashTable) (rs : List Course) (code : Str) :
    (loadRecords t rs).getCourse code =
      match findInChain (toUpper code) rs with
      | some c => .ok c
      | none => .error .notFoundError := by
  have hload : (loadRecords t rs).dataLoaded = true := by
    simp [loadRecords]
  have htbl : (loadRecords t rs).table.getD (hash (toUpper code)) [] =
      rs.filter (fun c => decide (hash (toUpper c.code) = hash (toUpper code))) := by
    show (insertAll _ rs).table.getD _ [] = _
    rw [insertAll_table_getD _ _ _ (by simp [List.length_replicate])]
    rw [getD_replicate_nil, List.nil_append]
  have hfind : findInChain (toUpper code)
      (rs.filter (fun c => decide (hash (toUpper c.code) = hash (toUpper code)))) =
      findInChain (toUpper code) rs := by
    apply findInChain_filter
    intro c hc
    rw [hc]
    simp
  rw [getCourse, hload]
  simp only [Bool.true_eq_false, if_false]
  rw [htbl, hfind]

end HashTable

namespace HashTable

/-- When no record of the chain matches, the head-first scan fails. -/
theorem findInChain_eq_none (key : Str) (rs : List Course)
    (h : ∀ c ∈ rs, toUpper c.code ≠ key) : findInChain key rs = none := by
  induction rs with
  | nil => rfl
  | cons c rest ih =>
    rw [findInChain, if_neg (h c (List.mem_cons_self c rest))]
    exact ih fun d hd => h d (List.mem_cons_of_mem c hd)

/-- With pairwise distinct canonical codes, the head-first scan finds each
member of the sequence. -/
theorem findInChain_of_mem (rs : List Course) (r : Course)
    (hdist : rs.Pairwise (fun a b => toUpper a.code ≠ toUpper b.code))
    (hr : r ∈ rs) : findInChain (toUpper r.code) rs = some r := by
  induction rs with
  | nil => exact absurd hr (List.not_mem_nil r)
  | cons c rest ih =>
    rcases List.mem_cons.mp hr with h | h
    · subst h
      rw [findInChain, if_pos rfl]
    · have hne : toUpper c.code ≠ toUpper r.code :=
        (List.pairwise_cons.mp hdist).1 r h
      rw [findInChain, if_neg hne]
      exact ih (List.pairwise_cons.mp hdist).2 h

end HashTable

namespace Enh1

theorem mapFind_mapInsert (m : List (Str × Course)) (k k' : Str) (c : Course) :
    mapFind (mapInsert m k c) k' = if k = k' then some c else mapFind m k' := by
  induction m with
  | nil =>
    show (if k = k' then some c else none) = _
    by_cases h : k = k' <;> simp [h, mapFind]
  | cons p rest ih =>
    obtain ⟨k0, c0⟩ := p
    rw [mapInsert]
    by_cases h0 : k0 = k
    · subst h0
      by_cases h' : k0 = k'
      · subst h'
        simp [mapFind]
      · simp [mapFind, h']
    · rw [if_neg h0]
      by_cases h' : k0 = k'
      · subst h'
        have : ¬k0 = k := h0
        rw [mapFind, if_pos rfl, mapFind, if_pos rfl]
        rw [if_neg fun hk => this hk.symm]
      · rw [mapFind, if_neg h', mapFind, if_neg h', ih]

/-- The **last** record of a sequence whose canonical code matches the key:
what a sequence of `unordered_map` assignments leaves behind. -/
def lastMatch (key : Str) : List Course → Option Course
  | [] => none
  | c :: rest =>
    match lastMatch key rest with
    | some d => some d
    | none => if toUpper c.code = key then some c else none

theorem insertAll_courseMap (rs : List Course) (t : HashTable) (k : Str) :
    mapFind (insertAll t rs).courseMap k =
      match lastMatch k rs with
      | some d => some d
      | none => mapFind t.courseMap k := by
  induction rs generalizing t with
  | nil => rfl
  | cons c rest ih =>
    show mapFind (insertAll (t.insertCourse c) rest).courseMap k = _
    rw [ih]
    show _ = (match lastMatch k (c :: rest) with
      | some d => some d
      | none => mapFind t.courseMap k)
    rw [lastMatch]
    cases lastMatch k rest with
    | some d => rfl
    | none =>
      show mapFind (mapInsert t.courseMap (toUpper c.code) c) k = _
      rw [mapFind_mapInsert]
      by_cases hc : toUpper c.code = k <;> simp [hc]

theorem enh1_insertAll_courseOrder (rs : List Course) (t : HashTable) :
    (insertAll t rs).courseOrder = t.courseOrder ++ rs.map (fun c => toUpper c.code) := by
  induction rs generalizing t with
  | nil => simp [insertAll]
  | cons c rest ih =>
    show (insertAll (t.insertCourse c) rest).courseOrder = _
    rw [ih]
    simp [HashTable.insertCourse]

theorem enh1_insertAll_dataLoaded (rs : List Course) (t : HashTable) :
    (insertAll t rs).dataLoaded = t.dataLoaded := by
  induction rs generalizing t with
  | nil => rfl
  | cons c rest ih =>
    show (insertAll (t.insertCourse c) rest).dataLoaded = _
    rw [ih]
    rfl

theorem lastMatch_eq_none (key : Str) (rs : List Course)
    (h : ∀ c ∈ rs, toUpper c.code ≠ key) : lastMatch key rs = none := by
  induction rs with
  | nil => rfl
  | cons c rest ih =>
    rw [lastMatch, ih fun d hd => h d (List.mem_cons_of_mem c hd)]
    rw [if_neg (h c (List.mem_cons_self c rest))]

/-- With pairwise distinct canonical codes, at most one record matches any
key, so the last match coincides with the head-first scan. -/
theorem lastMatch_eq_findInChain (key : Str) (rs : List Course)
    (hdist : rs.Pairwise (fun a b => toUpper a.code ≠ toUpper b.code)) :
    lastMatch key rs = HashTable.findInChain key rs := by
  induction rs with
  | nil => rfl
  | cons c rest ih =>
    have hd := List.pairwise_cons.mp hdist
    rw [lastMatch, HashTable.findInChain, ih hd.2]
    by_cases hc : toUpper c.code = key
    · have hnone : HashTable.findInChain key rest = none := by
        apply HashTable.findInChain_eq_none
        intro d hdmem
        rw [← hc]
        exact fun hdc => hd.1 d hdmem hdc.symm
      rw [hnone, if_pos hc]
    · simp only [hc, if_false]
      cases HashTable.findInChain key rest <;> rfl

/-- Enhancement1 lookup on a freshly loaded table returns the **last**
record of the load sequence whose canonical code matches. -/
theorem enh1_getCourse_loadRecords (t : HashTable) (rs : List Course) (code : Str) :
    (loadRecords t rs).getCourse code =
      match lastMatch (toUpper code) rs with
      | some c => .ok c
      | none => .error .notFoundError := by
  have hload : (loadRecords t rs).dataLoaded = true := by
    simp [loadRecords]
  rw [HashTable.getCourse, hload]
  simp only [Bool.true_eq_false, if_false]
  show (match mapFind (insertAll _ rs).courseMap (toUpper code) with
    | some c => Except.ok c
    | none => Except.error Err.notFoundError) = _
  rw [insertAll_courseMap]
  cases lastMatch (toUpper code) rs <;> rfl

end Enh1

namespace HashTable

/-- The head-first scan of a concatenated chain prefers the front part. -/
theorem findInChain_append (key : Str) (l1 l2 : List Course) :
    findInChain key (l1 ++ l2) =
      match findInChain key l1 with
      | some c => some c
      | none => findInChain key l2 := by
  induction l1 with
  | nil => rfl
  | cons c rest ih =>
    by_cases hc : toUpper c.code = key
    · simp [findInChain, hc]
    · simp only [List.cons_append, findInChain, if_neg hc]
      exact ih

theorem loadRecords_dataLoaded (t : HashTable) (rs : List Course) :
    (loadRecords t rs).dataLoaded = true := rfl

theorem loadRecords_courseOrder (t : HashTable) (rs : List Course) :
    (loadRecords t rs).courseOrder = rs.map (fun c => toUpper c.code) := by
  show (insertAll _ rs).courseOrder = _
  rw [insertAll_courseOrder]
  rfl

theorem loadRecords_table_length (t : HashTable) (rs : List Course) :
    (loadRecords t rs).table.length = HASH_TABLE_SIZE := by
  show (insertAll _ rs).table.length = _
  rw [insertAll_table_length]
  simp

/-- The line loop, stopped by the first bad line: every previously parsed
record stays inserted, and the error carries the 1-based line number. -/
theorem loadLines_partial (pre : List Str) (cs : List Course) (bad : Str)
    (rest : List Str) (e : Err) (t : HashTable) (n : Nat)
    (hpre : pre.map parseCourse = cs.map Except.ok)
    (hbad : parseCourse bad = .error e) :
    loadLines t n (pre ++ bad :: rest) =
      (insertAll t cs, some (.lineError (n + pre.length + 1) e)) := by
  induction pre generalizing t n cs with
  | nil =>
    cases cs with
    | nil => simp [loadLines, hbad, insertAll]
    | cons c cs' => simp at hpre
  | cons l pre' ih =>
    cases cs with
    | nil => simp at hpre
    | cons c cs' =>
      rw [List.map_cons, List.map_cons] at hpre
      have h1 : parseCourse l = .ok c := (List.cons.injEq _ _ _ _ ▸ hpre).1
      have h2 : pre'.map parseCourse = cs'.map Except.ok := (List.cons.injEq _ _ _ _ ▸ hpre).2
      have harith : n + 1 + pre'.length + 1 = n + (l :: pre').length + 1 := by
        simp only [List.length_cons]
        omega
      calc loadLines t n (l :: pre' ++ bad :: rest)
          = loadLines (t.insert c) (n + 1) (pre' ++ bad :: rest) := by
            simp [loadLines, h1]
        _ = (insertAll (t.insert c) cs', some (.lineError (n + 1 + pre'.length + 1) e)) :=
            ih cs' (t.insert c) (n + 1) h2
        _ = (insertAll t (c :: cs'), some (.lineError (n + (l :: pre').length + 1) e)) := by
            rw [harith]
            rfl

end HashTable

namespace Enh1

theorem enh1_loadRecords_dataLoaded (t : HashTable) (rs : List Course) :
    (loadRecords t rs).dataLoaded = true := rfl

theorem enh1_loadRecords_courseOrder (t : HashTable) (rs : List Course) :
    (loadRecords t rs).courseOrder = rs.map (fun c => toUpper c.code) := by
  show (insertAll _ rs).courseOrder = _
  rw [enh1_insertAll_courseOrder]
  rfl

end Enh1

/-- Modelled from the spec: the hash operation as §4.2 words it — "for each
character `c` in the canonicalized (uppercase) key, `h = h*31 + code(c)`
using unsigned wraparound arithmetic; final index = `h mod B`" with
`B = 17`. Used only to be compared against the source's `HashTable::hash`. -/
def hashSpec (key : Str) : Nat :=
  ((toUpper key).foldl (fun h c => (h * 31 + c) % 2 ^ 32) 0) % 17

/-! ## Claims -/

/-- C1 (counterexample): in enhancement1 the map assignment
`courseMap[upperCode] = course` **overwrites**. Loading "a,B" then "a,C"
(one table, two records with the same canonical code "A") makes lookup
return the second-inserted record, not the first-inserted one, so the
claim's "for every table ... lookup ... returns the first-inserted record"
is false on the enhancement1 table. -/
theorem enh1_duplicate_lookup_returns_last :
    (Enh1.loadData Enh1.init (some [[97, 44, 66], [97, 44, 67]])).1.getCourse [97]
      = .ok ⟨[97], [67], []⟩
    ∧ (⟨[97], [67], []⟩ : Course) ≠ ⟨[97], [66], []⟩
    ∧ (Enh1.loadData Enh1.init (some [[97, 44, 66], [97, 44, 67]])).1.courseOrder
      = [[65], [65]] := by decide

/-- C1 (amended): in the chained variants (enhancement2/enhancement3),
inserting r1 then r2 with the same canonical code into a loaded table whose
target bucket does not yet hold that code preserves both entries at the
tail of the bucket chain (no overwrite, removal or deduplication), a
subsequent lookup returns the first-inserted r1, and the sorted key list
gains that canonical code twice. Enhancement1's map overwrites instead, and
its lookup returns the last-inserted record, though its key list still
gains the code twice. -/
theorem chained_duplicate_insert_preserves_both (t : HashTable) (r1 r2 : Course)
    (hlen : t.table.length = HASH_TABLE_SIZE)
    (hloaded : t.dataLoaded = true)
    (hdup : toUpper r1.code = toUpper r2.code)
    (hfresh : HashTable.findInChain (toUpper r1.code)
        (t.table.getD (HashTable.hash (toUpper r1.code)) []) = none) :
    ((t.insert r1).insert r2).getCourse r1.code = .ok r1
    ∧ ((t.insert r1).insert r2).table.getD (HashTable.hash (toUpper r1.code)) []
        = t.table.getD (HashTable.hash (toUpper r1.code)) [] ++ [r1, r2]
    ∧ ((t.insert r1).insert r2).courseOrder
        = t.courseOrder ++ [toUpper r1.code, toUpper r1.code]
    ∧ (sortStrings ((t.insert r1).insert r2).courseOrder).Perm
        (t.courseOrder ++ [toUpper r1.code, toUpper r1.code]) := by
  have hbucket : ((t.insert r1).insert r2).table.getD (HashTable.hash (toUpper r1.code)) []
      = t.table.getD (HashTable.hash (toUpper r1.code)) [] ++ [r1, r2] := by
    rw [HashTable.insert_table_getD _ r2 _ (by rw [HashTable.insert_table_length, hlen]),
        HashTable.insert_table_getD _ r1 _ hlen]
    rw [← hdup, if_pos rfl, if_pos rfl, List.append_assoc]
    rfl
  have horder : ((t.insert r1).insert r2).courseOrder
      = t.courseOrder ++ [toUpper r1.code, toUpper r1.code] := by
    rw [HashTable.insert_courseOrder, HashTable.insert_courseOrder, ← hdup,
        List.append_assoc]
    rfl
  refine ⟨?_, hbucket, horder, ?_⟩
  · rw [HashTable.getCourse]
    have hl2 : ((t.insert r1).insert r2).dataLoaded = true := by
      rw [HashTable.insert_dataLoaded, HashTable.insert_dataLoaded, hloaded]
    rw [hl2]
    simp only [Bool.true_eq_false, if_false]
    rw [hbucket, HashTable.findInChain_append, hfresh]
    rw [HashTable.findInChain, if_pos rfl]
  · rw [horder]
    exact List.perm_insertionSort strLeR _

/-- C1 witness for the amended theorem: two same-code records inserted into
a freshly loaded empty chained table; lookup returns the first. -/
theorem chained_duplicate_insert_preserves_both_witness :
    (((HashTable.loadRecords HashTable.init []).insert ⟨[97], [66], []⟩).insert
        ⟨[97], [67], []⟩).getCourse [97] = .ok ⟨[97], [66], []⟩ :=
  (chained_duplicate_insert_preserves_both (HashTable.loadRecords HashTable.init [])
    ⟨[97], [66], []⟩ ⟨[97], [67], []⟩ (by decide) (by decide) (by decide) (by decide)).1

/-- C2 (counterexample): `clearTable` on a loaded one-course table leaves
`dataLoaded` true and `courseOrder` non-empty, and a lookup of the
previously inserted code then fails with `notFoundError`, not the
`stateError` the claim requires. -/
theorem clearTable_lookup_not_state_error :
    (HashTable.loadRecords HashTable.init [⟨[97], [66], []⟩]).clearTable.getCourse [97]
      = .error .notFoundError
    ∧ (HashTable.loadRecords HashTable.init [⟨[97], [66], []⟩]).clearTable.getCourse [97]
      ≠ .error .stateError
    ∧ (HashTable.loadRecords HashTable.init [⟨[97], [66], []⟩]).clearTable.dataLoaded = true
    ∧ (HashTable.loadRecords HashTable.init [⟨[97], [66], []⟩]).clearTable.courseOrder
      = [[65]] := by decide

/-- C2 (amended): `clearTable` empties every bucket chain and is
idempotent, but it leaves `courseOrder` and the loaded flag untouched, so
on a loaded table a subsequent lookup of any code (in particular any
previously inserted one) fails with `notFoundError`, not `stateError`. -/
theorem clearTable_empties_buckets_only (t : HashTable) :
    (∀ i, t.clearTable.table.getD i [] = [])
    ∧ t.clearTable.clearTable = t.clearTable
    ∧ t.clearTable.courseOrder = t.courseOrder
    ∧ t.clearTable.dataLoaded = t.dataLoaded
    ∧ (t.dataLoaded = true →
        ∀ code, t.clearTable.getCourse code = .error .notFoundError) := by
  refine ⟨fun i => getD_map_const_nil _ _, ?_, rfl, rfl, ?_⟩
  · show ({ t with table := (t.table.map _).map _ } : HashTable) = _
    rw [List.map_map]
    rfl
  · intro h code
    rw [HashTable.getCourse]
    have hl : t.clearTable.dataLoaded = true := h
    rw [hl]
    simp only [Bool.true_eq_false, if_false]
    rw [show t.clearTable.table = t.table.map (fun _ => ([] : List Course)) from rfl,
        getD_map_const_nil]
    rfl

/-- C2 witness: the amended theorem applied to a concrete loaded table. -/
theorem clearTable_empties_buckets_only_witness :
    (HashTable.loadRecords HashTable.init [⟨[98], [66], []⟩]).clearTable.getCourse [98]
      = .error .notFoundError :=
  (clearTable_empties_buckets_only
    (HashTable.loadRecords HashTable.init [⟨[98], [66], []⟩])).2.2.2.2 (by decide) [98]

/-- C3 (counterexample): reload a previously loaded table from a file whose
first line "," is malformed. The load raises partway, yet `dataLoaded`
stays **true** (no variant's `loadData` ever resets it to false), so
subsequent queries do not fail with `stateError` — contradicting "the
table's Loaded flag is false" for every table whether previously loaded or
not. -/
theorem failed_reload_keeps_loaded_flag :
    (HashTable.loadData (HashTable.loadRecords HashTable.init [⟨[97], [66], []⟩])
        (some [[44]])).2 = some (.lineError 1 .malformedLine)
    ∧ (HashTable.loadData (HashTable.loadRecords HashTable.init [⟨[97], [66], []⟩])
        (some [[44]])).1.dataLoaded = true
    ∧ (HashTable.loadData (HashTable.loadRecords HashTable.init [⟨[97], [66], []⟩])
        (some [[44]])).1.getCourse [97] ≠ .error .stateError := by decide

/-- C3 (amended): when a load raises partway, the `dataLoaded` flag is left
at its value from before the call — in particular it is false (and
subsequent queries fail with `stateError`) only if the table had never
been successfully loaded — and the partially inserted buckets and
`courseOrder` entries are not rolled back: the table returned alongside
the error is exactly the cleared table with the successfully parsed prefix
inserted. -/
theorem load_partial_failure_state (t : HashTable) (pre : List Str) (cs : List Course)
    (bad : Str) (rest : List Str) (e : Err)
    (hpre : pre.map parseCourse = cs.map Except.ok)
    (hbad : parseCourse bad = .error e) :
    HashTable.loadData t (some (pre ++ bad :: rest))
      = (HashTable.insertAll
            { t with courseOrder := [], table := List.replicate HASH_TABLE_SIZE [] } cs,
         some (.lineError (pre.length + 1) e))
    ∧ (HashTable.loadData t (some (pre ++ bad :: rest))).1.dataLoaded = t.dataLoaded
    ∧ (HashTable.loadData t (some (pre ++ bad :: rest))).1.courseOrder
        = cs.map (fun c => toUpper c.code)
    ∧ (t.dataLoaded = false → ∀ code,
        (HashTable.loadData t (some (pre ++ bad :: rest))).1.getCourse code
          = .error .stateError) := by
  have hmain : HashTable.loadData t (some (pre ++ bad :: rest))
      = (HashTable.insertAll
            { t with courseOrder := [], table := List.replicate HASH_TABLE_SIZE [] } cs,
         some (.lineError (pre.length + 1) e)) := by
    show HashTable.loadLines _ 0 (pre ++ bad :: rest) = _
    rw [HashTable.loadLines_partial pre cs bad rest e _ 0 hpre hbad]
    rw [Nat.zero_add]
  have hflag : (HashTable.loadData t (some (pre ++ bad :: rest))).1.dataLoaded
      = t.dataLoaded := by
    rw [hmain]
    show (HashTable.insertAll _ cs).dataLoaded = _
    rw [HashTable.insertAll_dataLoaded]
  refine ⟨hmain, hflag, ?_, ?_⟩
  · rw [hmain]
    show (HashTable.insertAll _ cs).courseOrder = _
    rw [HashTable.insertAll_courseOrder]
    rfl
  · intro hun code
    rw [HashTable.getCourse, hflag, hun]
    rfl

/-- C3 witness: a table never loaded before; the failed load leaves the
flag false, keeps the parsed prefix, and queries then fail with
`stateError`. -/
theorem load_partial_failure_state_witness :
    (HashTable.loadData HashTable.init (some [[97, 44, 66], [44]])).1.courseOrder
      = [[65]]
    ∧ (HashTable.loadData HashTable.init (some [[97, 44, 66], [44]])).1.getCourse [97]
      = .error .stateError := by
  have h := load_partial_failure_state HashTable.init [[97, 44, 66]]
    [⟨[97], [66], []⟩] [44] [] .malformedLine (by decide) (by decide)
  exact ⟨h.2.2.1, h.2.2.2 rfl [97]⟩

/-- C4 (counterexample): the three variants do **not** implement one and
the same observable design. On the two-record sequence "a,B", "a,C" (one
duplicated code) enhancement2/enhancement3's `getCourse` returns the
first-inserted record while enhancement1's returns the last-inserted one,
so the same loaded sequence and query yield different records. -/
theorem variants_disagree_on_duplicate :
    (HashTable.loadRecords HashTable.init [⟨[97], [66], []⟩, ⟨[97], [67], []⟩]).getCourse [97]
      = .ok ⟨[97], [66], []⟩
    ∧ (Enh1.loadRecords Enh1.init [⟨[97], [66], []⟩, ⟨[97], [67], []⟩]).getCourse [97]
      = .ok ⟨[97], [67], []⟩
    ∧ (HashTable.loadRecords HashTable.init [⟨[97], [66], []⟩, ⟨[97], [67], []⟩]).getCourse [97]
      ≠ (Enh1.loadRecords Enh1.init [⟨[97], [66], []⟩, ⟨[97], [67], []⟩]).getCourse [97] := by
  decide

/-- C4 (amended): the variants agree observably on every record sequence
with pairwise distinct canonical codes — `getCourse` returns the same
record or fails the same way for every queried code, and
`getSortedCourseCodes` returns the same sequence (the latter even without
distinctness) — but on sequences with a duplicated canonical code
enhancement1's lookup returns the last-inserted match where
enhancement2/enhancement3 return the first-inserted one. -/
theorem variants_agree_on_distinct_codes (rs : List Course) (q : Str)
    (hdist : rs.Pairwise (fun a b => toUpper a.code ≠ toUpper b.code)) :
    (HashTable.loadRecords HashTable.init rs).getCourse q
      = (Enh1.loadRecords Enh1.init rs).getCourse q
    ∧ Except.map Prod.fst (HashTable.loadRecords HashTable.init rs).getSortedCourseCodes
      = Except.map Prod.fst (Enh1.loadRecords Enh1.init rs).getSortedCourseCodes := by
  constructor
  · rw [HashTable.getCourse_loadRecords, Enh1.enh1_getCourse_loadRecords,
        Enh1.lastMatch_eq_findInChain _ _ hdist]
  · rw [HashTable.getSortedCourseCodes, Enh1.HashTable.getSortedCourseCodes,
        HashTable.loadRecords_dataLoaded, Enh1.enh1_loadRecords_dataLoaded]
    simp only [Bool.true_eq_false, if_false]
    rw [HashTable.loadRecords_courseOrder, Enh1.enh1_loadRecords_courseOrder]
    rfl

/-- C4 witness: two distinct-code records; both variants return the same
record for a queried code. -/
theorem variants_agree_on_distinct_codes_witness :
    (HashTable.loadRecords HashTable.init [⟨[97], [66], []⟩, ⟨[98], [67], []⟩]).getCourse [97]
      = (Enh1.loadRecords Enh1.init [⟨[97], [66], []⟩, ⟨[98], [67], []⟩]).getCourse [97] :=
  (variants_agree_on_distinct_codes [⟨[97], [66], []⟩, ⟨[98], [67], []⟩] [97]
    (by decide)).1

/-- C5: the source's `HashTable::hash`, applied (as `insert` and
`getCourse` apply it) to the canonicalized uppercase key, computes exactly
the spec's base-31 polynomial rolling hash with unsigned 32-bit wraparound
reduced modulo B = 17; the index is always in range (never an error), and
`insert` really appends to the bucket at that index. -/
theorem hash_matches_spec (key : Str) (t : HashTable) (c : Course)
    (hlen : t.table.length = HASH_TABLE_SIZE) :
    HashTable.hash (toUpper key) = hashSpec key
    ∧ hashSpec key < 17
    ∧ (t.insert c).table.getD (hashSpec c.code) []
        = t.table.getD (hashSpec c.code) [] ++ [c] := by
  have heq : ∀ k : Str, HashTable.hash (toUpper k) = hashSpec k := by
    intro k
    have h232 : (2 : ℕ) ^ 32 = 4294967296 := by norm_num
    rw [HashTable.hash, hashSpec, HASH_TABLE_SIZE, h232]
  refine ⟨heq key, Nat.mod_lt _ (by norm_num), ?_⟩
  rw [HashTable.insert_table_getD _ _ _ hlen, heq c.code, if_pos rfl]

/-- C5 witness: the hash agreement evaluated on the concrete key "a". -/
theorem hash_matches_spec_witness :
    HashTable.hash (toUpper [97]) = hashSpec [97] ∧ hashSpec [97] = 14 :=
  ⟨(hash_matches_spec [97] HashTable.init ⟨[97], [66], []⟩ (by decide)).1, by decide⟩

/-- C6 (counterexample): the public default constructor `Course() {}`
produces a concrete `Course` whose code and title are both empty and runs
no validation, so a partially-valid Record **can** exist — it is exactly
the object `unordered_map::operator[]` default-constructs in
enhancement1's `courseMap[upperCode] = course`. -/
theorem default_course_is_empty :
    Course.defaultCtor.code = [] ∧ Course.defaultCtor.title = [] := ⟨rfl, rfl⟩

/-- C6 (amended): the validating three-argument constructor succeeds for
every pair of non-empty code and title, storing the prerequisites verbatim,
and fails with `validationError` whenever code or title is empty,
regardless of the prerequisites; however the class also exposes a public
default constructor yielding a `Course` with empty code and title, so a
partially-valid Record can exist. -/
theorem course_construct_validates (c t : Str) (p : List Str) :
    (c ≠ [] → t ≠ [] → Course.construct c t p = .ok ⟨c, t, p⟩)
    ∧ (c = [] ∨ t = [] → Course.construct c t p = .error .validationError)
    ∧ Course.defaultCtor.code = [] := by
  refine ⟨?_, ?_, rfl⟩
  · intro hc ht
    rw [Course.construct, if_neg]
    rintro (h | h)
    · exact hc h
    · exact ht h
  · intro h
    rw [Course.construct, if_pos h]

/-- C6 witness: construction succeeds on ("C","T") with a prerequisite
kept verbatim, and fails on an empty code. -/
theorem course_construct_validates_witness :
    Course.construct [67] [84] [[88]] = .ok ⟨[67], [84], [[88]]⟩
    ∧ Course.construct [] [84] [[88]] = .error .validationError :=
  ⟨(course_construct_validates [67] [84] [[88]]).1 (by decide) (by decide),
   (course_construct_validates [] [84] [[88]]).2.1 (Or.inl rfl)⟩

/-- C7: loading a sequence of records with pairwise distinct canonical
codes into the chained table makes `getCourse ri.code` return exactly `ri`
for every member, and `getSortedCourseCodes` returns precisely the n
canonical codes — a ascending-sorted permutation of them. -/
theorem load_distinct_lookup_and_sorted (rs : List Course)
    (hdist : rs.Pairwise (fun a b => toUpper a.code ≠ toUpper b.code)) :
    (∀ r ∈ rs, (HashTable.loadRecords HashTable.init rs).getCourse r.code = .ok r)
    ∧ Except.map Prod.fst (HashTable.loadRecords HashTable.init rs).getSortedCourseCodes
        = .ok (sortStrings (rs.map (fun c => toUpper c.code)))
    ∧ List.Sorted strLeR (sortStrings (rs.map (fun c => toUpper c.code)))
    ∧ (sortStrings (rs.map (fun c => toUpper c.code))).Perm
        (rs.map (fun c => toUpper c.code)) := by
  refine ⟨?_, ?_, ?_, ?_⟩
  · intro r hr
    rw [HashTable.getCourse_loadRecords,
        HashTable.findInChain_of_mem rs r hdist hr]
  · rw [HashTable.getSortedCourseCodes, HashTable.loadRecords_dataLoaded]
    simp only [Bool.true_eq_false, if_false]
    rw [HashTable.loadRecords_courseOrder]
    rfl
  · exact List.sorted_insertionSort strLeR _
  · exact List.perm_insertionSort strLeR _

/-- C7 witness: loading ["b,C", then "a,B"] (distinct codes) — each record
is found under its own code and the sorted key list is ["A","B"]. -/
theorem load_distinct_lookup_and_sorted_witness :
    (HashTable.loadRecords HashTable.init
        [⟨[98], [67], []⟩, ⟨[97], [66], []⟩]).getCourse [98] = .ok ⟨[98], [67], []⟩
    ∧ sortStrings ([⟨[98], [67], []⟩, ⟨[97], [66], []⟩].map
        (fun c : Course => toUpper c.code)) = [[65], [66]] :=
  ⟨(load_distinct_lookup_and_sorted [⟨[98], [67], []⟩, ⟨[97], [66], []⟩]
      (by decide)).1 ⟨[98], [67], []⟩ (by decide), by decide⟩

/-- C8: the lookup errors are discriminable and arise exactly as claimed —
on an unloaded table both `getCourse` and `getSortedCourseCodes` fail with
`stateError` for every code; on a freshly loaded table a code whose
canonical form was never inserted fails with `notFoundError`; and the
lookup result depends only on the loaded flag and the target bucket's
chain (the scan touches no other bucket). -/
theorem lookup_error_discrimination (t t2 t3 : HashTable) (code : Str)
    (rs : List Course) :
    (t.dataLoaded = false →
        t.getCourse code = .error .stateError
        ∧ t.getSortedCourseCodes = .error .stateError)
    ∧ (toUpper code ∉ rs.map (fun c => toUpper c.code) →
        (HashTable.loadRecords HashTable.init rs).getCourse code
          = .error .notFoundError)
    ∧ (t2.dataLoaded = t3.dataLoaded →
        t2.table.getD (HashTable.hash (toUpper code)) []
          = t3.table.getD (HashTable.hash (toUpper code)) [] →
        t2.getCourse code = t3.getCourse code) := by
  refine ⟨?_, ?_, ?_⟩
  · intro h
    constructor
    · rw [HashTable.getCourse, h]
      rfl
    · rw [HashTable.getSortedCourseCodes, h]
      rfl
  · intro h
    rw [HashTable.getCourse_loadRecords]
    rw [HashTable.findInChain_eq_none]
    intro c hc hceq
    exact h (List.mem_map.mpr ⟨c, hc, hceq⟩)
  · intro h1 h2
    simp only [HashTable.getCourse, h1, h2]

/-- C8 witness: the never-loaded fresh table rejects queries with
`stateError`, and a loaded table rejects an absent code with
`notFoundError`. -/
theorem lookup_error_discrimination_witness :
    (HashTable.init.getCourse [97] = .error .stateError
      ∧ HashTable.init.getSortedCourseCodes = .error .stateError)
    ∧ (HashTable.loadRecords HashTable.init [⟨[98], [67], []⟩]).getCourse [97]
        = .error .notFoundError :=
  ⟨(lookup_error_discrimination HashTable.init HashTable.init HashTable.init [97]
      [⟨[98], [67], []⟩]).1 rfl,
   (lookup_error_discrimination HashTable.init HashTable.init HashTable.init [97]
      [⟨[98], [67], []⟩]).2.1 (by decide)⟩

/-- C9: a load whose source cannot be opened at all raises `openError`
before touching any state: both the chained variants' and enhancement1's
`loadData` return the table exactly as it was — buckets, `courseOrder` and
the loaded flag included. -/
theorem load_open_failure_atomic (t : HashTable) (t1 : Enh1.HashTable) :
    HashTable.loadData t none = (t, some .openError)
    ∧ Enh1.loadData t1 none = (t1, some .openError) :=
  ⟨rfl, rfl⟩

/-- C10: `getSortedCourseCodes` sorts the stored `courseOrder` **in
place**: it returns the sorted sequence together with a table whose stored
`courseOrder` is that sorted sequence (the original insertion order is
gone from the state), the result is ascending, a second call returns the
very same sequence and state, and no lookup result changes. -/
theorem getSortedCourseCodes_sorts_in_place (t : HashTable)
    (h : t.dataLoaded = true) :
    t.getSortedCourseCodes
        = .ok (sortStrings t.courseOrder,
               { t with courseOrder := sortStrings t.courseOrder })
    ∧ List.Sorted strLeR (sortStrings t.courseOrder)
    ∧ ({ t with courseOrder := sortStrings t.courseOrder }).getSortedCourseCodes
        = .ok (sortStrings t.courseOrder,
               { t with courseOrder := sortStrings t.courseOrder })
    ∧ ∀ code, ({ t with courseOrder := sortStrings t.courseOrder }).getCourse code
        = t.getCourse code := by
  have hsorted : List.Sorted strLeR (sortStrings t.courseOrder) :=
    List.sorted_insertionSort strLeR _
  have hidem : sortStrings (sortStrings t.courseOrder) = sortStrings t.courseOrder :=
    hsorted.insertionSort_eq
  refine ⟨?_, hsorted, ?_, fun code => rfl⟩
  · rw [HashTable.getSortedCourseCodes, h]
    rfl
  · rw [HashTable.getSortedCourseCodes]
    show (if t.dataLoaded = false then _ else _) = _
    rw [h]
    simp only [Bool.true_eq_false, if_false]
    rw [hidem]

/-- C10 witness: a concrete loaded two-key table; the call returns the
sorted keys and the resorted state. -/
theorem getSortedCourseCodes_sorts_in_place_witness :
    (HashTable.loadRecords HashTable.init [⟨[98], [67], []⟩, ⟨[97], [66], []⟩]).getSortedCourseCodes
      = .ok (sortStrings (HashTable.loadRecords HashTable.init
               [⟨[98], [67], []⟩, ⟨[97], [66], []⟩]).courseOrder,
             { HashTable.loadRecords HashTable.init [⟨[98], [67], []⟩, ⟨[97], [66], []⟩] with
                 courseOrder := sortStrings (HashTable.loadRecords HashTable.init
                   [⟨[98], [67], []⟩, ⟨[97], [66], []⟩]).courseOrder }) :=
  (getSortedCourseCodes_sorts_in_place
    (HashTable.loadRecords HashTable.init [⟨[98], [67], []⟩, ⟨[97], [66], []⟩])
    (by decide)).1
